import Mathlib

/-!
# Verification of the cache-purge orchestrator (erfianugrah/cache-purge-go)

A shallow embedding of the zone-resolution, purge-orchestration and KV tag-purge
logic of the repository, together with theorems settling the frozen claims.

Modelling conventions:
* Go strings are Lean `String`; `strings.HasSuffix` / `strings.Contains` are
  embedded via `List Char` suffix / infix tests on `String.data`.
* Network calls are abstracted by an oracle `Nat → Bool` giving the success of
  the n-th call issued; the state records a log of issued calls.
* Console printing is not modelled; counters and warnings are kept explicitly.
* The concurrent KV delete batches (one goroutine per batch of 30, counters
  guarded by a mutex) are serialized batch-by-batch in batch order; the counted
  quantities and the set of issued calls are order-independent.
-/

namespace CachePurge

/-- Embeds Go `strings.HasSuffix(s, suffix0)`: `true` iff `suffix0` is a suffix
of `s`.  From the uses in `cmd/purge.go` and `main.go`. -/
def goHasSuffix (s suffix0 : String) : Bool :=
  suffix0.data.isSuffixOf s.data

/-- Contiguous-sublist test: `true` iff `sub` occurs contiguously in the list. -/
def hasSubList [BEq α] (sub : List α) : List α → Bool
  | [] => sub.isEmpty
  | a :: as => sub.isPrefixOf (a :: as) || hasSubList sub as

/-- Embeds Go `strings.Contains(s, sub)`: `true` iff `sub` occurs inside `s`.
From the uses in `cmd/purge.go`, `cmd/kv/purge.go` and `main.go`. -/
def goContains (s sub : String) : Bool :=
  hasSubList sub.data s.data

/-- Embeds Go `strings.Split` on a single-character separator, structurally on the
character list (so that the kernel can evaluate it). -/
def splitOnChar (sep : Char) : List Char → List (List Char)
  | [] => [[]]
  | c :: cs =>
    if c = sep then [] :: splitOnChar sep cs
    else
      match splitOnChar sep cs with
      | [] => [[c]]
      | w :: ws => (c :: w) :: ws

/-- Embeds `splitCommaList` from `main.go` (and `util.SplitCommaList`, its
packaged form): `nil` for the empty string, otherwise `strings.Split(s, ",")`. -/
def splitCommaList (s : String) : List String :=
  if s = "" then [] else (splitOnChar ',' s.data).map (fun cs => { data := cs })

/-- Contiguous chunks of at most 30 elements, in order.  Embeds the
`for i := 0; i < len(l); i += 30` batching loops of `cmd/purge.go` and
`cmd/kv/purge.go`. -/
def chunksOf30 : List α → List (List α)
  | [] => []
  | a :: l => ((a :: l).take 30) :: chunksOf30 ((a :: l).drop 30)
termination_by l => l.length
decreasing_by
  simp only [List.length_drop, List.length_cons]
  omega

/-- A Cloudflare zone, as in `main.go` (`Zone`) and the `cloudflare.Zone`
fields the code reads. -/
structure Zone where
  id : String
  name : String
  status : String
deriving DecidableEq, Repr

/-! ## Longest-match zone resolution (`handlePurge`, src/unnamed/part_004)

The host/URL matching loop of `handlePurge` carries `matched`,
`matchedZoneName` and `matchedZone` through the zone list, replacing the
current match when the candidate matches and is strictly longer (or when no
name has been recorded yet). -/

/-- The loop state of the matching loops at src/unnamed/part_004 lines 180-228:
`var matchedZoneName string; var matchedZone Zone; matched := false`. -/
structure MatchState where
  matched : Bool
  matchedZoneName : String
  matchedZone : Zone
deriving DecidableEq, Repr

/-- One iteration of the matching loop of `handlePurge` (src/unnamed/part_004):
the zone replaces the current match when its name satisfies the match predicate
`p` and either no zone has been recorded (`matchedZoneName == ""`) or its name
is strictly longer.  For hosts `p` is suffix matching, for URLs containment. -/
def matchStep (p : String → Bool) (st : MatchState) (z : Zone) : MatchState :=
  if p z.name = true ∧ (st.matchedZoneName = "" ∨ st.matchedZoneName.length < z.name.length) then
    ⟨true, z.name, z⟩
  else st

/-- The full matching loop of `handlePurge` (src/unnamed/part_004): fold
`matchStep` over the zone snapshot and return the matched zone, if any.
The Go loop ranges over a map; the fold fixes list order, which does not
affect the longest-match properties proved below. -/
def bestZoneFor (p : String → Bool) (zones : List Zone) : Option Zone :=
  let st := zones.foldl (matchStep p) ⟨false, "", ⟨"", "", ""⟩⟩
  if st.matched then some st.matchedZone else none

/-! ## Per-zone host/URL filters of the cobra purge command (src/cmd/purge.go) -/

/-- The host list built for one zone in the selective branch of
`purgeCmd.RunE` (src/cmd/purge.go lines 126-132): every supplied host whose
suffix is the zone name. -/
def purgeHostsListFor (hosts : String) (z : Zone) : List String :=
  (splitCommaList hosts).filter (fun h => goHasSuffix h z.name)

/-- The URL list built for one zone in the selective branch of
`purgeCmd.RunE` (src/cmd/purge.go lines 134-140): every supplied URL that
contains the zone name. -/
def purgeURLsListFor (urls : String) (z : Zone) : List String :=
  (splitCommaList urls).filter (fun u => goContains u z.name)

/-- The set of zones whose purge request carries host `h` under the cobra
command's per-zone filters (src/cmd/purge.go lines 126-132). -/
def zonesAssignedHost (zones : List Zone) (hosts : String) (h : String) : List Zone :=
  zones.filter (fun z => (purgeHostsListFor hosts z).contains h)

/-- Predicate `shouldInclude` of `purgeCmd.RunE` (src/cmd/purge.go lines 78-98): a zone
is targeted when some host has its name as suffix or some URL contains it. -/
def shouldIncludeZone (hostsList urlsList : List String) (z : Zone) : Bool :=
  hostsList.any (fun h => goHasSuffix h z.name) || urlsList.any (fun u => goContains u z.name)

/-- Target-zone resolution of `purgeCmd.RunE` (src/cmd/purge.go lines 57-103),
also lines 106-157 of `handlePurge` in src/unnamed/part_003: all zones under
`--all`; exact name/id lookup with a warning per unresolved argument; otherwise
the zones including some host/URL, a fatal error when none matches; an empty
target list when only tags are supplied.  Returns targets plus warnings. -/
def resolveTargetZones (zones : List Zone) (zoneArgs : List String)
    (hosts urls : String) (all0 : Bool) : Except String (List Zone × List String) :=
  if all0 = true then .ok (zones, [])
  else if zoneArgs ≠ [] then
    .ok (zoneArgs.foldl (fun acc arg =>
      match zones.find? (fun z => z.name == arg || z.id == arg) with
      | some z => (acc.1 ++ [z], acc.2)
      | none => (acc.1, acc.2 ++ ["Zone '" ++ arg ++ "' not found"])) ([], []))
  else if hosts ≠ "" ∨ urls ≠ "" then
    let ts := zones.filter (shouldIncludeZone (splitCommaList hosts) (splitCommaList urls))
    if ts = [] then .error "no matching zones found for the specified hosts/URLs"
    else .ok (ts, [])
  else .ok ([], [])

/-! ## The purge loop of the cobra command (src/cmd/purge.go lines 105-202)
and of `handlePurge` in src/unnamed/part_003 (lines 159-241). -/

/-- One purge API call, as issued by the purge loops: either
`PurgeEverything(zoneID)` or `PurgeCache(zoneID, {hosts, files, tags})`. -/
inductive PurgeCall where
  | everything (zoneID : String)
  | cache (zoneID : String) (hosts files tags : List String)
deriving DecidableEq, Repr

/-- The mutable state of a purge run: number of calls issued so far, the log
of issued calls, and the two counters of src/cmd/purge.go lines 105-106. -/
structure RunState where
  calls : Nat
  callLog : List PurgeCall
  successCount : Nat
  failureCount : Nat
deriving DecidableEq, Repr

/-- Issue one API call: log it and ask the oracle whether it succeeded
(`true` plays the role of Go `err == nil`). -/
def issueCall (oracle : Nat → Bool) (st : RunState) (c : PurgeCall) : RunState × Bool :=
  ({ st with calls := st.calls + 1, callLog := st.callLog ++ [c] }, oracle st.calls)

/-- The tag-chunk loop of `purgeCmd.RunE` (src/cmd/purge.go lines 159-177):
send each chunk as its own `PurgeCache` call, overwriting the shared `err`,
and `break` out of the loop as soon as a chunk fails.  `prevOk` is the value
of the shared `err` before the loop. -/
def runTagChunks (zid : String) (oracle : Nat → Bool) :
    List (List String) → RunState → Bool → RunState × Bool
  | [], st, prevOk => (st, prevOk)
  | c :: rest, st, _ =>
    let (st', ok) := issueCall oracle st (.cache zid [] [] c)
    if ok = true then runTagChunks zid oracle rest st' ok else (st', ok)

/-- One iteration of the zone loop of `purgeCmd.RunE`
(src/cmd/purge.go lines 108-199).  In the selective branch a single shared
`err` is overwritten by the hosts call, then the URLs call, then the tag
chunks, and exactly one counter is bumped per zone according to its final
value; a zone with an empty payload does nothing. -/
def processZoneCmd (hosts urls tags : String) (everything : Bool)
    (oracle : Nat → Bool) (st : RunState) (z : Zone) : RunState :=
  if everything = true then
    let (st', ok) := issueCall oracle st (.everything z.id)
    if ok = true then { st' with successCount := st'.successCount + 1 }
    else { st' with failureCount := st'.failureCount + 1 }
  else
    let hostsList := purgeHostsListFor hosts z
    let urlsList := purgeURLsListFor urls z
    if hostsList ≠ [] ∨ urlsList ≠ [] ∨ tags ≠ "" then
      let s1 :=
        if hostsList ≠ [] then issueCall oracle st (.cache z.id hostsList [] [])
        else (st, true)
      let s2 :=
        if urlsList ≠ [] then issueCall oracle s1.1 (.cache z.id [] urlsList [])
        else s1
      let s3 :=
        if tags ≠ "" then runTagChunks z.id oracle (chunksOf30 (splitCommaList tags)) s2.1 s2.2
        else s2
      if s3.2 = true then { s3.1 with successCount := s3.1.successCount + 1 }
      else { s3.1 with failureCount := s3.1.failureCount + 1 }
    else st

/-- One iteration of the zone loop of `handlePurge`
(src/unnamed/part_003 lines 162-235): identical to the cobra loop except that
all tags are sent in a single `PurgeCache` call (no chunking). -/
def processZoneMain (hosts urls tags : String) (everything : Bool)
    (oracle : Nat → Bool) (st : RunState) (z : Zone) : RunState :=
  if everything = true then
    let (st', ok) := issueCall oracle st (.everything z.id)
    if ok = true then { st' with successCount := st'.successCount + 1 }
    else { st' with failureCount := st'.failureCount + 1 }
  else
    let hostsList := purgeHostsListFor hosts z
    let urlsList := purgeURLsListFor urls z
    if hostsList ≠ [] ∨ urlsList ≠ [] ∨ tags ≠ "" then
      let s1 :=
        if hostsList ≠ [] then issueCall oracle st (.cache z.id hostsList [] [])
        else (st, true)
      let s2 :=
        if urlsList ≠ [] then issueCall oracle s1.1 (.cache z.id [] urlsList [])
        else s1
      let s3 :=
        if splitCommaList tags ≠ [] then
          issueCall oracle s2.1 (.cache z.id [] [] (splitCommaList tags))
        else s2
      if s3.2 = true then { s3.1 with successCount := s3.1.successCount + 1 }
      else { s3.1 with failureCount := s3.1.failureCount + 1 }
    else st

/-- The initial run state (`successCount := 0; failureCount := 0`). -/
def initRunState : RunState := ⟨0, [], 0, 0⟩

/-- Embeds `purgeCmd.RunE` (src/cmd/purge.go lines 37-203): auth validation, the
argument check, zone listing, target resolution and the per-zone purge loop.
`authOk` abstracts `api.ValidateAuth` / `api.GetClient`, `zonesResult` the
`api.ListZones` call.  The function returns `.ok` with the final counters
after printing the summary — it never turns `failureCount > 0` into an
error. -/
def purgeRunE (authOk : Bool) (zonesResult : Except String (List Zone))
    (zoneArgs : List String) (hosts urls tags : String) (all0 everything : Bool)
    (oracle : Nat → Bool) : Except String RunState :=
  if authOk = false then
    .error "either API Token or both API Key and Email are required"
  else if zoneArgs = [] ∧ all0 = false ∧ hosts = "" ∧ urls = "" ∧ tags = "" then
    .error "must specify at least one zone, use --all flag, or provide hosts/urls/tags"
  else
    match zonesResult with
    | .error e => .error ("error getting zones: " ++ e)
    | .ok zones =>
      match resolveTargetZones zones zoneArgs hosts urls all0 with
      | .error e => .error e
      | .ok (targets, _) =>
        .ok (targets.foldl (processZoneCmd hosts urls tags everything oracle) initRunState)

/-- Modelled from the spec: the cobra-era `main` (absent from src/) runs
`cmd.Execute()` and, per the spec's exit-code contract for pre-flight errors,
exits 1 exactly when the command returns an error and 0 when it returns nil. -/
def cmdExitCode (authOk : Bool) (zonesResult : Except String (List Zone))
    (zoneArgs : List String) (hosts urls tags : String) (all0 everything : Bool)
    (oracle : Nat → Bool) : Nat :=
  match purgeRunE authOk zonesResult zoneArgs hosts urls tags all0 everything oracle with
  | .error _ => 1
  | .ok _ => 0

/-- Embeds `handlePurge` of src/unnamed/part_003 (lines 63-241) up to its exit
decision: every `os.Exit(1)` before the zone loop is an `.error`, and the
final state is returned for the exit decision at lines 237-241. -/
def handlePurgeRun (authOk : Bool) (zonesResult : Except String (List Zone))
    (zoneArgs : List String) (hosts urls tags : String) (all0 everything : Bool)
    (oracle : Nat → Bool) : Except String RunState :=
  if authOk = false then
    .error "either API Token or both API Key and Email are required"
  else if zoneArgs = [] ∧ all0 = false ∧ hosts = "" ∧ urls = "" ∧ tags = "" then
    .error "must specify at least one zone, use -all flag, or provide hosts/urls/tags"
  else
    match zonesResult with
    | .error e => .error ("error getting zones: " ++ e)
    | .ok zones =>
      match resolveTargetZones zones zoneArgs hosts urls all0 with
      | .error e => .error e
      | .ok (targets, _) =>
        .ok (targets.foldl (processZoneMain hosts urls tags everything oracle) initRunState)

/-- The exit code of `handlePurge` (src/unnamed/part_003 lines 237-241):
1 for every pre-flight abort, else `if failureCount > 0 { os.Exit(1) }`. -/
def handlePurgeExitCode (authOk : Bool) (zonesResult : Except String (List Zone))
    (zoneArgs : List String) (hosts urls tags : String) (all0 everything : Bool)
    (oracle : Nat → Bool) : Nat :=
  match handlePurgeRun authOk zonesResult zoneArgs hosts urls tags all0 everything oracle with
  | .error _ => 1
  | .ok st => if st.failureCount > 0 then 1 else 0

/-! ## Per-zone purge configs of `handlePurge` (src/unnamed/part_004) -/

/-- Struct `ZonePurgeConfig` of src/unnamed/part_004 lines 54-59. -/
structure ZonePurgeConfig where
  zone : Zone
  hosts : List String
  urls : List String
  tags : List String
deriving DecidableEq, Repr

/-- Go map read `purgeConfigs[name]`: the stored config, or the zero value
when the key is absent.  The map is modelled as an association list keyed by
zone name (Go map keys are unique). -/
def getConfig (configs : List (String × ZonePurgeConfig)) (name : String) : ZonePurgeConfig :=
  match configs.find? (fun kv => kv.1 == name) with
  | some kv => kv.2
  | none => ⟨⟨"", "", ""⟩, [], [], []⟩

/-- Go map write `purgeConfigs[name] = cfg`: replace in place, or append. -/
def setConfig (configs : List (String × ZonePurgeConfig)) (name : String)
    (cfg : ZonePurgeConfig) : List (String × ZonePurgeConfig) :=
  if configs.any (fun kv => kv.1 == name) then
    configs.map (fun kv => if kv.1 == name then (name, cfg) else kv)
  else configs ++ [(name, cfg)]

/-- One iteration of the host-processing loop of `handlePurge`
(src/unnamed/part_004 lines 182-202): the host is matched to its longest
suffix-matching zone via `bestZoneFor` and appended to that zone's config; an
unmatched host only produces a warning. -/
def hostStepP4 (zones : List Zone) (acc : List (String × ZonePurgeConfig) × List String)
    (h : String) : List (String × ZonePurgeConfig) × List String :=
  match bestZoneFor (fun n => goHasSuffix h n) zones with
  | some z =>
    let cfg := getConfig acc.1 z.name
    (setConfig acc.1 z.name { cfg with zone := z, hosts := cfg.hosts ++ [h] }, acc.2)
  | none => (acc.1, acc.2 ++ ["No matching zone found for host: " ++ h])

/-- The host-processing loop of `handlePurge` (src/unnamed/part_004 lines
180-203), folding `hostStepP4` over the supplied host list. -/
def processHostsP4 (zones : List Zone) (hostList : List String)
    (acc : List (String × ZonePurgeConfig) × List String) :
    List (String × ZonePurgeConfig) × List String :=
  hostList.foldl (hostStepP4 zones) acc

/-! ## KV tag purge (src/cmd/kv/purge.go) -/

/-- A Go metadata value as far as the KV purge inspects it: the code performs
two type assertions, `map[string]interface\x7b\x7d` on the metadata object and
`string` on the `cache-tag` field (src/cmd/kv/purge.go lines 105-118). -/
inductive GoVal where
  | str (s : String)
  | map (fields : List (String × GoVal))
  | other

/-- A KV key listing entry: name plus optional metadata
(`cloudflare.StorageKey` as read by src/cmd/kv/purge.go). -/
structure KVEntry where
  name : String
  metadata : Option GoVal

/-- Go map read `metadata["cache-tag"]` on the asserted metadata map. -/
def goLookup (fields : List (String × GoVal)) (k : String) : Option GoVal :=
  match fields.find? (fun kv => kv.1 == k) with
  | some kv => some kv.2
  | none => none

/-- One iteration of the tag-collection loop of `newPurgeCmd`
(src/cmd/kv/purge.go lines 105-118): the entry is selected when its metadata
is a map whose `cache-tag` field is a string containing `deleteByTag`; its key
name and raw tag value are appended.  Entries failing any of the checks are
skipped with no output. -/
def collectStep (deleteByTag : String) (acc : List String × List String)
    (key : KVEntry) : List String × List String :=
  match key.metadata with
  | some (GoVal.map fields) =>
    match goLookup fields "cache-tag" with
    | some (GoVal.str t) =>
      if goContains t deleteByTag = true then (acc.1 ++ [key.name], acc.2 ++ [t])
      else acc
    | _ => acc
  | _ => acc

/-- The tag-collection loop of `newPurgeCmd` (src/cmd/kv/purge.go lines
102-118): fold `collectStep` over the listed keys, starting from empty
`keysToDelete` and `cacheTags`. -/
def collectByTag (keys : List KVEntry) (deleteByTag : String) :
    List String × List String :=
  keys.foldl (collectStep deleteByTag) ([], [])

/-- The cache-tag value of an entry, when its metadata is a map with a string
`cache-tag` field; written after the spec's description of `TagCollector`
(§4.3) to characterize `collectByTag`. -/
def entryTagValue (e : KVEntry) : Option String :=
  match e.metadata with
  | some (GoVal.map fields) =>
    match goLookup fields "cache-tag" with
    | some (GoVal.str t) => some t
    | _ => none
  | _ => none

/-- Spec-side selection predicate (§4.3): the entry's metadata has a
`cache-tag` field whose string value contains the filter as a substring. -/
def specMatches (deleteByTag : String) (e : KVEntry) : Bool :=
  match entryTagValue e with
  | some t => goContains t deleteByTag
  | none => false

/-- One iteration of `util.StringSliceToSet` (src/unnamed/part_001, package
util): the Go map write `set[item] = true` adds the key when it is absent.
The stored `true` value carries no information, so the `map[string]bool` is
modelled by its key list. -/
def setInsert (set : List String) (item : String) : List String :=
  if item ∈ set then set else set ++ [item]

/-- Embeds `util.StringSliceToSet` (src/unnamed/part_001, package util),
which folds the slice into a `map[string]bool` with one key per distinct
element, composed with the `for tag := range uniqueTags` loop of
src/cmd/kv/purge.go lines 196-199 that lists the map's keys: the result is
the key list of the built map, with Go's unspecified map iteration order
fixed to first-insertion order (the claims proved below are order-free). -/
def stringSliceToSet (slice : List String) : List String :=
  slice.foldl setInsert []

/-- The accumulated state of the KV delete pass of `newPurgeCmd`
(src/cmd/kv/purge.go lines 81-182): overall counters, collected tags, the log
of issued `DeleteWorkersKVEntry` calls and the keys reported by dry run. -/
structure KVState where
  totalSuccess : Nat
  totalFailure : Nat
  allCacheTags : List String
  deleteCalls : List (String × String)
  reported : List (String × String)
deriving DecidableEq, Repr

/-- One key deletion inside the batched delete loop of `newPurgeCmd`
(src/cmd/kv/purge.go lines 155-171): one `DeleteWorkersKVEntry` call, bumping
exactly one of the mutex-guarded counters. -/
def deleteKeyStep (nsID : String) (oracle : Nat → Bool) (st : KVState)
    (key : String) : KVState :=
  let ok := oracle st.deleteCalls.length
  let st' := { st with deleteCalls := st.deleteCalls ++ [(nsID, key)] }
  if ok = true then { st' with totalSuccess := st'.totalSuccess + 1 }
  else { st' with totalFailure := st'.totalFailure + 1 }

/-- The batched delete loop of `newPurgeCmd` (src/cmd/kv/purge.go lines
136-176): keys are split into batches of 30, one goroutine per batch, each
key in a batch processed in order.  The concurrent batches are serialized in
batch order. -/
def deleteKeysBatch (nsID : String) (oracle : Nat → Bool) (st : KVState)
    (keysToDelete : List String) : KVState :=
  (chunksOf30 keysToDelete).foldl (fun st batch =>
    batch.foldl (deleteKeyStep nsID oracle) st) st

/-- One iteration of the namespace loop of `newPurgeCmd`
(src/cmd/kv/purge.go lines 86-182): list the keys (a listing error counts one
failure), collect matching keys and tags, stop if none matched, in dry run
only report the keys, otherwise delete them and append the collected tags. -/
def processNamespace (deleteByTag : String)
    (listing : String → Except String (List KVEntry)) (dryRun : Bool)
    (oracle : Nat → Bool) (st : KVState) (nsID : String) : KVState :=
  match listing nsID with
  | .error _ => { st with totalFailure := st.totalFailure + 1 }
  | .ok keys =>
    let collected := collectByTag keys deleteByTag
    if collected.1 = [] then st
    else if dryRun = true then
      { st with reported := st.reported ++ collected.1.map (fun k => (nsID, k)) }
    else
      let st' := deleteKeysBatch nsID oracle st collected.1
      { st' with allCacheTags := st'.allCacheTags ++ collected.2 }

/-- The whole KV delete pass over the target namespaces
(src/cmd/kv/purge.go lines 81-182). -/
def kvDeletePhase (deleteByTag : String)
    (listing : String → Except String (List KVEntry)) (dryRun : Bool)
    (oracle : Nat → Bool) (nsIDs : List String) : KVState :=
  nsIDs.foldl (processNamespace deleteByTag listing dryRun oracle) ⟨0, 0, [], [], []⟩

/-- The state of the final cache-purge pass of `newPurgeCmd`
(src/cmd/kv/purge.go lines 203-230). -/
structure KVPurgeState where
  purgeCalls : List (String × List String)
  purgeSuccess : Nat
  purgeFailure : Nat
deriving DecidableEq, Repr

/-- The cache-purge pass of `newPurgeCmd` (src/cmd/kv/purge.go lines
184-232): only entered with collected tags and outside dry run; the
deduplicated tag list is chunked into 30s and each chunk is purged from every
zone, one call per (chunk, zone), counted individually. -/
def kvPurgePhase (dryRun : Bool) (zonesResult : Except String (List Zone))
    (oracle : Nat → Bool) (allCacheTags : List String) : KVPurgeState :=
  if allCacheTags ≠ [] ∧ dryRun = false then
    match zonesResult with
    | .error _ => ⟨[], 0, 0⟩
    | .ok zones =>
      let tagsList := stringSliceToSet allCacheTags
      (chunksOf30 tagsList).foldl (fun ps batch =>
        zones.foldl (fun ps z =>
          let ok := oracle ps.purgeCalls.length
          { purgeCalls := ps.purgeCalls ++ [(z.id, batch)],
            purgeSuccess := ps.purgeSuccess + (if ok = true then 1 else 0),
            purgeFailure := ps.purgeFailure + (if ok = true then 0 else 1) }) ps)
        ⟨[], 0, 0⟩
  else ⟨[], 0, 0⟩

/-! ## Concrete fixtures used by witnesses and counterexamples -/

/-- A parent zone `example.com`, as in the spec's overlapping-zone example. -/
def zEx : Zone := ⟨"idE", "example.com", "active"⟩

/-- A child zone `api.example.com`, as in the spec's overlapping-zone example. -/
def zApi : Zone := ⟨"idA", "api.example.com", "active"⟩

/-! ## Longest-match invariant of the `handlePurge` matching loop -/

/-- Invariant of the matching fold of src/unnamed/part_004: the recorded zone
satisfies the predicate and its recorded name is its own; the recorded name is
empty while nothing matched; the recorded name only grows; matches are never
dropped; and every processed zone that satisfies the predicate is dominated in
length by the recorded name. -/
lemma matchStep_foldl_spec (p : String → Bool) (zones : List Zone) :
    ∀ st : MatchState,
      (st.matched = true → st.matchedZoneName = st.matchedZone.name ∧ p st.matchedZone.name = true) →
      (st.matched = false → st.matchedZoneName = "") →
      ((zones.foldl (matchStep p) st).matched = true →
          (zones.foldl (matchStep p) st).matchedZoneName = (zones.foldl (matchStep p) st).matchedZone.name ∧
          p (zones.foldl (matchStep p) st).matchedZone.name = true)
      ∧ ((zones.foldl (matchStep p) st).matched = false →
          (zones.foldl (matchStep p) st).matchedZoneName = "")
      ∧ st.matchedZoneName.length ≤ (zones.foldl (matchStep p) st).matchedZoneName.length
      ∧ (st.matched = true → (zones.foldl (matchStep p) st).matched = true)
      ∧ (∀ z ∈ zones, p z.name = true →
          (zones.foldl (matchStep p) st).matched = true ∧
          z.name.length ≤ (zones.foldl (matchStep p) st).matchedZoneName.length) := by
  induction zones with
  | nil =>
    intro st h1 h0
    refine ⟨h1, h0, le_refl _, fun h => h, ?_⟩
    intro z hz
    simp at hz
  | cons z zs ih =>
    intro st h1 h0
    simp only [List.foldl_cons]
    by_cases hc : p z.name = true ∧ (st.matchedZoneName = "" ∨ st.matchedZoneName.length < z.name.length)
    · have hstep : matchStep p st z = ⟨true, z.name, z⟩ := by
        simp only [matchStep, if_pos hc]
      rw [hstep]
      have ih' := ih ⟨true, z.name, z⟩
        (fun _ => ⟨rfl, hc.1⟩) (fun h => by simp at h)
      obtain ⟨i1, i0, imono, ikeep, iall⟩ := ih'
      refine ⟨i1, i0, ?_, fun _ => ikeep rfl, ?_⟩
      · rcases hc.2 with he | hlt
        · calc st.matchedZoneName.length = 0 := by rw [he]; rfl
            _ ≤ _ := Nat.zero_le _
        · exact le_trans (le_of_lt hlt) imono
      · intro z' hz' hp
        rcases List.mem_cons.mp hz' with rfl | hmem
        · exact ⟨ikeep rfl, imono⟩
        · exact iall z' hmem hp
    · have hstep : matchStep p st z = st := by
        simp only [matchStep, if_neg hc]
      rw [hstep]
      have ih' := ih st h1 h0
      obtain ⟨i1, i0, imono, ikeep, iall⟩ := ih'
      refine ⟨i1, i0, imono, ikeep, ?_⟩
      intro z' hz' hp
      rcases List.mem_cons.mp hz' with rfl | hmem
      · -- the zone matches but did not replace: the recorded name dominates it
        have hne : ¬(st.matchedZoneName = "" ∨ st.matchedZoneName.length < z'.name.length) := by
          intro h
          exact hc ⟨hp, h⟩
        push_neg at hne
        have hmt : st.matched = true := by
          by_contra hf
          have := h0 (Bool.not_eq_true _ ▸ (by revert hf; cases st.matched <;> simp))
          exact hne.1 this
        exact ⟨ikeep hmt, le_trans hne.2 imono⟩
      · exact iall z' hmem hp

/-- C1, counterexample.  Under the selective branch of `purgeCmd.RunE`
(src/cmd/purge.go lines 126-132) the host `api.example.com` is placed in the
purge host list of BOTH zones `example.com` and `api.example.com`: the cobra
command assigns a host to every zone whose name is a suffix of it, not only to
the longest match, so the claimed at-most-one-zone assignment fails there. -/
theorem c1_counterexample :
    zonesAssignedHost [zEx, zApi] "api.example.com" "api.example.com" = [zEx, zApi]
    ∧ zEx.name = "example.com" ∧ zApi.name = "api.example.com" := by
  refine ⟨by decide, rfl, rfl⟩

/-- C1, amended.  In `handlePurge` (src/unnamed/part_004 lines 180-228) a host
or URL is matched to at most one zone — `bestZoneFor` returns an `Option` —
and whenever a zone is returned, its name satisfies the match predicate and no
zone in the snapshot with a matching name is strictly longer.  (The cobra
command's per-zone filters instead assign a host to every suffix-matching
zone, as the counterexample shows.) -/
theorem c1_amended (p : String → Bool) (zones : List Zone) (z : Zone)
    (hz : bestZoneFor p zones = some z) :
    p z.name = true ∧ ∀ z' ∈ zones, p z'.name = true → z'.name.length ≤ z.name.length := by
  have hspec := matchStep_foldl_spec p zones ⟨false, "", ⟨"", "", ""⟩⟩
    (by intro h; simp at h) (fun _ => rfl)
  obtain ⟨i1, i0, _, _, iall⟩ := hspec
  unfold bestZoneFor at hz
  by_cases hm : (zones.foldl (matchStep p) ⟨false, "", ⟨"", "", ""⟩⟩).matched = true
  · rw [if_pos hm] at hz
    obtain ⟨hname, hp⟩ := i1 hm
    have hzeq : (zones.foldl (matchStep p) ⟨false, "", ⟨"", "", ""⟩⟩).matchedZone = z :=
      Option.some.inj hz
    constructor
    · rw [← hzeq]; exact hp
    · intro z' hz' hp'
      have := (iall z' hz' hp').2
      rw [hname, hzeq] at this
      exact this
  · rw [if_neg hm] at hz
    exact absurd hz (by simp)

/-- C1, witness for the amended theorem at the spec's overlapping-zone
example: `api.example.com` resolves to the zone `api.example.com`, whose name
dominates every matching zone name in length. -/
theorem c1_amended_witness :
    goHasSuffix "api.example.com" zApi.name = true
    ∧ ∀ z' ∈ [zEx, zApi], goHasSuffix "api.example.com" z'.name = true →
        z'.name.length ≤ zApi.name.length :=
  c1_amended (fun n => goHasSuffix "api.example.com" n) [zEx, zApi] zApi (by decide)

/-! ## Warning and exclusion of unmatched hosts (`handlePurge`, part_004) -/

/-- Every entry of `setConfig cfgs name cfg` is an old entry or the written one. -/
lemma mem_setConfig (cfgs : List (String × ZonePurgeConfig)) (name : String)
    (cfg : ZonePurgeConfig) :
    ∀ kv ∈ setConfig cfgs name cfg, kv ∈ cfgs ∨ kv = (name, cfg) := by
  intro kv hkv
  unfold setConfig at hkv
  by_cases hc : cfgs.any (fun kv => kv.1 == name) = true
  · rw [if_pos hc] at hkv
    obtain ⟨kv0, hkv0, heq⟩ := List.mem_map.mp hkv
    by_cases hk : kv0.1 == name
    · right; rw [if_pos hk] at heq; exact heq.symm
    · left; rw [if_neg hk] at heq; exact heq ▸ hkv0
  · rw [if_neg hc] at hkv
    rcases List.mem_append.mp hkv with hold | hnew
    · exact Or.inl hold
    · exact Or.inr (List.mem_singleton.mp hnew)

/-- A host absent from every stored config is absent from the config
`getConfig` reads (the zero value has an empty host list). -/
lemma getConfig_not_mem (cfgs : List (String × ZonePurgeConfig)) (name : String)
    (h : String) (hh : ∀ kv ∈ cfgs, h ∉ kv.2.hosts) :
    h ∉ (getConfig cfgs name).hosts := by
  unfold getConfig
  cases hfind : cfgs.find? (fun kv => kv.1 == name) with
  | none => simp
  | some kv => exact hh kv (List.mem_of_find?_eq_some hfind)

/-- Host-processing invariant of `handlePurge` (src/unnamed/part_004 lines
180-203): a host with no suffix-matching zone is never appended to any
config's host list, gets its warning recorded, and warnings are preserved. -/
lemma processHostsP4_spec (zones : List Zone) (h : String)
    (hnone : bestZoneFor (fun n => goHasSuffix h n) zones = none) :
    ∀ (hostList : List String) (acc : List (String × ZonePurgeConfig) × List String),
      (∀ kv ∈ acc.1, h ∉ kv.2.hosts) →
      (∀ kv ∈ (processHostsP4 zones hostList acc).1, h ∉ kv.2.hosts)
      ∧ (∀ w ∈ acc.2, w ∈ (processHostsP4 zones hostList acc).2)
      ∧ (h ∈ hostList →
          ("No matching zone found for host: " ++ h) ∈ (processHostsP4 zones hostList acc).2) := by
  intro hostList
  induction hostList with
  | nil =>
    intro acc hacc
    refine ⟨hacc, fun w hw => hw, ?_⟩
    intro hmem; simp at hmem
  | cons h' hs ih =>
    intro acc hacc
    have hunf : processHostsP4 zones (h' :: hs) acc
        = processHostsP4 zones hs (hostStepP4 zones acc h') := by
      simp only [processHostsP4, List.foldl_cons]
    rw [hunf]
    cases hbz : bestZoneFor (fun n => goHasSuffix h' n) zones with
    | some z =>
      have hne : h ≠ h' := by
        intro heq; rw [heq] at hnone; rw [hnone] at hbz; exact absurd hbz (by simp)
      have hfst : (hostStepP4 zones acc h').1 = setConfig acc.1 z.name
          { getConfig acc.1 z.name with
            zone := z
            hosts := (getConfig acc.1 z.name).hosts ++ [h'] } := by
        simp only [hostStepP4, hbz]
      have hsnd : (hostStepP4 zones acc h').2 = acc.2 := by
        simp only [hostStepP4, hbz]
      have hacc' : ∀ kv ∈ (hostStepP4 zones acc h').1, h ∉ kv.2.hosts := by
        rw [hfst]
        intro kv hkv
        rcases mem_setConfig _ _ _ kv hkv with hold | hnew
        · exact hacc kv hold
        · rw [hnew]
          simp only [List.mem_append, List.mem_singleton]
          rintro (hin | heq)
          · exact getConfig_not_mem acc.1 z.name h hacc hin
          · exact hne heq
      obtain ⟨e1, e2, e3⟩ := ih _ hacc'
      refine ⟨e1, fun w hw => e2 w (by rw [hsnd]; exact hw), ?_⟩
      intro hmem
      rcases List.mem_cons.mp hmem with heq | hmem'
      · exact absurd heq.symm hne.symm
      · exact e3 hmem'
    | none =>
      have hfst : (hostStepP4 zones acc h').1 = acc.1 := by
        simp only [hostStepP4, hbz]
      have hsnd : (hostStepP4 zones acc h').2
          = acc.2 ++ ["No matching zone found for host: " ++ h'] := by
        simp only [hostStepP4, hbz]
      have hacc' : ∀ kv ∈ (hostStepP4 zones acc h').1, h ∉ kv.2.hosts := by
        rw [hfst]; exact hacc
      obtain ⟨e1, e2, e3⟩ := ih _ hacc'
      refine ⟨e1, fun w hw => e2 w (by rw [hsnd]; exact List.mem_append_left _ hw), ?_⟩
      intro hmem
      rcases List.mem_cons.mp hmem with heq | hmem'
      · subst heq
        exact e2 _ (by rw [hsnd]; exact List.mem_append_right _ (List.mem_singleton.mpr rfl))
      · exact e3 hmem'

/-- C5, counterexample.  When no supplied host matches any zone, the cobra
command's resolution is fatal, not a warning: `purgeCmd.RunE`
(src/cmd/purge.go lines 100-102) returns the error
"no matching zones found for the specified hosts/URLs" (exit 1), so the run
does not proceed; part_004 likewise exits 1 when no configs remain. -/
theorem c5_counterexample :
    resolveTargetZones [zEx] [] "foo.org" "" false
      = .error "no matching zones found for the specified hosts/URLs" := by
  rfl

/-- C5, amended.  A host that matches no zone gets a "No matching zone found"
warning and is excluded from every zone's host assignment, and the remaining
hosts are still processed (src/unnamed/part_004 lines 199-201); however this
is only non-fatal while resolution still yields at least one target: when no
host/URL matches any zone the run aborts with an error (src/cmd/purge.go
lines 100-102; part_004 lines 239-242 exits 1 when no configs remain). -/
theorem c5_amended (zones : List Zone) (hostList : List String)
    (cfgs0 : List (String × ZonePurgeConfig)) (w0 : List String) (h : String)
    (hmem : h ∈ hostList)
    (hnone : bestZoneFor (fun n => goHasSuffix h n) zones = none)
    (hinit : ∀ kv ∈ cfgs0, h ∉ kv.2.hosts) :
    ("No matching zone found for host: " ++ h) ∈ (processHostsP4 zones hostList (cfgs0, w0)).2
    ∧ ∀ kv ∈ (processHostsP4 zones hostList (cfgs0, w0)).1, h ∉ kv.2.hosts := by
  obtain ⟨e1, _, e3⟩ := processHostsP4_spec zones h hnone hostList (cfgs0, w0) hinit
  exact ⟨e3 hmem, e1⟩

/-- C5, witness for the amended theorem: the unmatched host `foo.org`
produces its warning and ends up in no config when resolved against the
single zone `example.com`. -/
theorem c5_amended_witness :
    ("No matching zone found for host: " ++ "foo.org")
        ∈ (processHostsP4 [zEx] ["foo.org"] ([], [])).2
    ∧ ∀ kv ∈ (processHostsP4 [zEx] ["foo.org"] ([], [])).1, "foo.org" ∉ kv.2.hosts :=
  c5_amended [zEx] ["foo.org"] [] [] "foo.org" (by decide) (by decide) (by simp)

/-! ## Chunked tag purging: specification of the break-on-error loop -/

/-- The chunks for which the loop of src/cmd/purge.go lines 162-177 actually
issues a call, when the counter starts at `n`: every chunk up to and including
the first one whose call fails; later chunks are dropped by the `break`. -/
def issuedChunks (oracle : Nat → Bool) (n : Nat) : List (List String) → List (List String)
  | [] => []
  | c :: rest => if oracle n = true then c :: issuedChunks oracle (n + 1) rest else [c]

/-- Unfolding equation of `chunksOf30` on a nonempty list. -/
lemma chunksOf30_cons (a : α) (l : List α) :
    chunksOf30 (a :: l) = ((a :: l).take 30) :: chunksOf30 ((a :: l).drop 30) := by
  simp only [chunksOf30]

/-- Bounded-fuel form of the chunk-size bound, by plain induction on fuel. -/
lemma chunksOf30_length_le_aux :
    ∀ (n : Nat) (l : List α), l.length ≤ n → ∀ c ∈ chunksOf30 l, c.length ≤ 30 := by
  intro n
  induction n with
  | zero =>
    intro l hl c hc
    have : l = [] := List.length_eq_zero.mp (Nat.le_zero.mp hl)
    subst this
    simp [chunksOf30] at hc
  | succ n ih =>
    intro l hl c hc
    cases l with
    | nil => simp [chunksOf30] at hc
    | cons a t =>
      rw [chunksOf30_cons] at hc
      rcases List.mem_cons.mp hc with rfl | hmem
      · simpa using List.length_take_le 30 (a :: t)
      · exact ih ((a :: t).drop 30)
          (by simp only [List.length_drop, List.length_cons]
              simp only [List.length_cons] at hl; omega) c hmem

/-- Every chunk produced by `chunksOf30` has at most 30 elements. -/
lemma chunksOf30_length_le (l : List α) : ∀ c ∈ chunksOf30 l, c.length ≤ 30 :=
  chunksOf30_length_le_aux l.length l (le_refl _)

/-- Bounded-fuel form of the chunk-concatenation identity. -/
lemma chunksOf30_join_aux :
    ∀ (n : Nat) (l : List α), l.length ≤ n → (chunksOf30 l).join = l := by
  intro n
  induction n with
  | zero =>
    intro l hl
    have : l = [] := List.length_eq_zero.mp (Nat.le_zero.mp hl)
    subst this
    simp [chunksOf30]
  | succ n ih =>
    intro l hl
    cases l with
    | nil => simp [chunksOf30]
    | cons a t =>
      rw [chunksOf30_cons]
      have hrec : (chunksOf30 ((a :: t).drop 30)).join = (a :: t).drop 30 :=
        ih ((a :: t).drop 30)
          (by simp only [List.length_drop, List.length_cons]
              simp only [List.length_cons] at hl; omega)
      simp only [List.join_cons, hrec, List.take_append_drop]

/-- Concatenating the chunks of `chunksOf30` gives back the list. -/
lemma chunksOf30_join (l : List α) : (chunksOf30 l).join = l :=
  chunksOf30_join_aux l.length l (le_refl _)

/-- A nonempty list has a nonempty chunk list. -/
lemma chunksOf30_ne_nil (l : List α) (hl : l ≠ []) : chunksOf30 l ≠ [] := by
  cases l with
  | nil => exact absurd rfl hl
  | cons a t => rw [chunksOf30_cons]; simp

/-- The issued chunks of a nonempty chunk list are nonempty. -/
lemma issuedChunks_ne_nil (oracle : Nat → Bool) (n : Nat) (cs : List (List String))
    (hcs : cs ≠ []) : issuedChunks oracle n cs ≠ [] := by
  cases cs with
  | nil => exact absurd rfl hcs
  | cons c rest =>
    simp only [issuedChunks]
    by_cases h : oracle n = true
    · rw [if_pos h]; simp
    · rw [if_neg h]; simp

/-- The issued chunks are an initial segment of the chunk list. -/
lemma issuedChunks_initial (oracle : Nat → Bool) :
    ∀ (cs : List (List String)) (n : Nat), ∃ rest, cs = issuedChunks oracle n cs ++ rest := by
  intro cs
  induction cs with
  | nil => intro n; exact ⟨[], rfl⟩
  | cons c t ih =>
    intro n
    simp only [issuedChunks]
    by_cases h : oracle n = true
    · rw [if_pos h]
      obtain ⟨rest, hrest⟩ := ih (n + 1)
      exact ⟨rest, by rw [List.cons_append, ← hrest]⟩
    · rw [if_neg h]
      exact ⟨t, rfl⟩

/-- If the call for the last issued chunk succeeded, nothing was dropped:
every chunk was issued. -/
lemma issuedChunks_all_of_last_ok (oracle : Nat → Bool) :
    ∀ (cs : List (List String)) (n : Nat), cs ≠ [] →
      oracle (n + (issuedChunks oracle n cs).length - 1) = true →
      issuedChunks oracle n cs = cs := by
  intro cs
  induction cs with
  | nil => intro n h; exact absurd rfl h
  | cons c t ih =>
    intro n _ hlast
    simp only [issuedChunks] at hlast ⊢
    by_cases h : oracle n = true
    · rw [if_pos h] at hlast ⊢
      cases ht : t with
      | nil => simp [ht, issuedChunks]
      | cons c' t' =>
        subst ht
        have hne : issuedChunks oracle (n + 1) (c' :: t') ≠ [] :=
          issuedChunks_ne_nil oracle (n + 1) _ (by simp)
        have hlen : 1 ≤ (issuedChunks oracle (n + 1) (c' :: t')).length :=
          Nat.one_le_iff_ne_zero.mpr (by simpa using hne)
        have : oracle (n + 1 + (issuedChunks oracle (n + 1) (c' :: t')).length - 1) = true := by
          have harith : n + (c :: issuedChunks oracle (n + 1) (c' :: t')).length - 1
              = n + 1 + (issuedChunks oracle (n + 1) (c' :: t')).length - 1 := by
            simp only [List.length_cons]; omega
          rw [harith] at hlast
          exact hlast
        rw [ih (n + 1) (by simp) this]
    · rw [if_neg h] at hlast ⊢
      simp only [List.length_singleton] at hlast
      have : oracle n = true := by simpa using hlast
      exact absurd this h

/-- Characterization of the tag-chunk loop (src/cmd/purge.go lines 159-177):
it issues exactly the `issuedChunks`, leaves the counters alone, and the
shared `err` it leaves behind is the previous one when there is no chunk and
otherwise the outcome of the last call it issued. -/
lemma runTagChunks_spec (zid : String) (oracle : Nat → Bool) :
    ∀ (cs : List (List String)) (st : RunState) (prev : Bool),
      runTagChunks zid oracle cs st prev =
        ({ st with
            calls := st.calls + (issuedChunks oracle st.calls cs).length
            callLog := st.callLog ++
              (issuedChunks oracle st.calls cs).map (fun c => PurgeCall.cache zid [] [] c) },
         if cs = [] then prev
         else oracle (st.calls + (issuedChunks oracle st.calls cs).length - 1)) := by
  intro cs
  induction cs with
  | nil =>
    intro st prev
    simp [runTagChunks, issuedChunks]
  | cons c rest ih =>
    intro st prev
    simp only [runTagChunks, issueCall]
    by_cases h : oracle st.calls = true
    · rw [if_pos h, ih]
      have hiss : issuedChunks oracle st.calls (c :: rest)
          = c :: issuedChunks oracle (st.calls + 1) rest := by
        simp only [issuedChunks, if_pos h]
      rw [hiss]
      dsimp only
      have harith : st.calls + 1 + (issuedChunks oracle (st.calls + 1) rest).length
          = st.calls + (c :: issuedChunks oracle (st.calls + 1) rest).length := by
        simp only [List.length_cons]; omega
      have hlog : st.callLog ++ [PurgeCall.cache zid [] [] c] ++
            List.map (fun c => PurgeCall.cache zid [] [] c) (issuedChunks oracle (st.calls + 1) rest)
          = st.callLog ++ List.map (fun c => PurgeCall.cache zid [] [] c)
              (c :: issuedChunks oracle (st.calls + 1) rest) := by
        simp [List.append_assoc]
      rw [harith, hlog]
      by_cases hrest : rest = []
      · subst hrest
        rw [if_pos rfl, if_neg (by simp : ¬(c :: ([] : List (List String)) = []))]
        have hl : st.calls +
            (c :: issuedChunks oracle (st.calls + 1) ([] : List (List String))).length - 1
            = st.calls := by
          simp [issuedChunks]
        rw [hl, h]
      · rw [if_neg hrest, if_neg (by simp : ¬(c :: rest = []))]
    · rw [if_neg h]
      have hiss : issuedChunks oracle st.calls (c :: rest) = [c] := by
        simp only [issuedChunks, if_neg h]
      rw [hiss]
      rw [if_neg (by simp : ¬(c :: rest = []))]
      simp only [List.map_cons, List.map_nil, List.length_cons, List.length_nil]
      have harr : st.calls + (0 + 1) - 1 = st.calls := by omega
      rw [harr]

/-- Splitting a nonempty string always yields at least one element, as in Go. -/
lemma splitOnChar_ne_nil (sep : Char) (cs : List Char) : splitOnChar sep cs ≠ [] := by
  cases cs with
  | nil => simp [splitOnChar]
  | cons c t =>
    simp only [splitOnChar]
    by_cases h : c = sep
    · rw [if_pos h]; simp
    · rw [if_neg h]
      cases hs : splitOnChar sep t <;> simp

/-- A nonempty tag flag yields a nonempty tag list. -/
lemma splitCommaList_ne_nil (s : String) (hs : s ≠ "") : splitCommaList s ≠ [] := by
  unfold splitCommaList
  rw [if_neg hs]
  intro h
  exact splitOnChar_ne_nil ',' s.data (List.map_eq_nil.mp h)

/-- A comma-separated string of 31 tags (two chunks of the Cloudflare
30-tag batching limit). -/
def t31 : String :=
  "t1,t2,t3,t4,t5,t6,t7,t8,t9,t10,t11,t12,t13,t14,t15,t16,t17,t18,t19,t20,t21,t22,t23,t24,t25,t26,t27,t28,t29,t30,t31"

/-- The first chunk of the 31 tags. -/
def t31c1 : List String :=
  ["t1", "t2", "t3", "t4", "t5", "t6", "t7", "t8", "t9", "t10", "t11", "t12", "t13", "t14",
   "t15", "t16", "t17", "t18", "t19", "t20", "t21", "t22", "t23", "t24", "t25", "t26", "t27",
   "t28", "t29", "t30"]

/-- The 31 tags split into the two chunks the purge loop should send. -/
lemma chunksOf30_t31 : chunksOf30 (splitCommaList t31) = [t31c1, ["t31"]] := by
  rw [show splitCommaList t31
      = ("t1" :: ["t2", "t3", "t4", "t5", "t6", "t7", "t8", "t9", "t10", "t11", "t12", "t13",
          "t14", "t15", "t16", "t17", "t18", "t19", "t20", "t21", "t22", "t23", "t24", "t25",
          "t26", "t27", "t28", "t29", "t30", "t31"]) from rfl]
  rw [chunksOf30_cons]
  rw [show (("t1" :: ["t2", "t3", "t4", "t5", "t6", "t7", "t8", "t9", "t10", "t11", "t12",
      "t13", "t14", "t15", "t16", "t17", "t18", "t19", "t20", "t21", "t22", "t23", "t24",
      "t25", "t26", "t27", "t28", "t29", "t30", "t31"]).drop 30) = ("t31" :: ([] : List String))
      from rfl]
  rw [chunksOf30_cons]
  rw [show (("t31" :: ([] : List String)).drop 30) = ([] : List String) from rfl]
  rw [show chunksOf30 ([] : List String) = [] from by simp [chunksOf30]]
  rfl

/-- C4, counterexample.  With 31 tags (two chunks) and a first purge call that
fails, the tag loop of `purgeCmd.RunE` (src/cmd/purge.go lines 162-177) issues
only ONE call and records the zone as one failure: the `break` at line 175
skips the remaining chunk, so it is not true that every chunk is attempted
regardless of earlier chunk failures. -/
theorem c4_counterexample :
    (chunksOf30 (splitCommaList t31)).length = 2
    ∧ (processZoneCmd "" "" t31 false (fun _ => false) initRunState zEx).callLog.length = 1
    ∧ (processZoneCmd "" "" t31 false (fun _ => false) initRunState zEx).failureCount = 1 := by
  have hrun := runTagChunks_spec "idE" (fun _ => false)
    (chunksOf30 (splitCommaList t31)) initRunState true
  rw [chunksOf30_t31] at hrun
  have hiss : issuedChunks (fun _ => false) initRunState.calls [t31c1, ["t31"]] = [t31c1] := by
    simp [issuedChunks, initRunState]
  rw [hiss] at hrun
  have hproc : processZoneCmd "" "" t31 false (fun _ => false) initRunState zEx
      = { calls := 1, callLog := [PurgeCall.cache "idE" [] [] t31c1],
          successCount := 0, failureCount := 1 } := by
    simp only [processZoneCmd]
    rw [if_neg (by simp : ¬(false = true))]
    rw [if_pos (by right; right; intro h; exact absurd h (by decide) :
      purgeHostsListFor "" zEx ≠ [] ∨ purgeURLsListFor "" zEx ≠ [] ∨ t31 ≠ "")]
    rw [if_neg (by decide : ¬(purgeHostsListFor "" zEx ≠ []))]
    rw [if_neg (by decide : ¬(purgeURLsListFor "" zEx ≠ []))]
    rw [if_pos (by decide : t31 ≠ "")]
    rw [show zEx.id = "idE" from rfl]
    rw [chunksOf30_t31, hrun]
    rw [if_neg (by simp : ¬((if ([t31c1, ["t31"]] : List (List String)) = [] then true
      else (fun _ => false) (initRunState.calls + [t31c1].length - 1)) = true))]
    rfl
  rw [hproc, chunksOf30_t31]
  refine ⟨rfl, rfl, rfl⟩

/-- C4, amended.  The tag loop of `purgeCmd.RunE` (src/cmd/purge.go lines
159-177) sends the tags in chunks of at most 30, one purge call per chunk;
but on the first chunk whose call fails it breaks out: the chunks actually
issued are a nonempty initial segment of the chunk list, and they are all of
the chunks only when no issued chunk failed (in particular, when the loop
leaves a nil shared error). -/
theorem c4_amended (zid : String) (oracle : Nat → Bool) (tags : String) (st : RunState)
    (prev : Bool) (ht : tags ≠ "") :
    (∀ c ∈ chunksOf30 (splitCommaList tags), c.length ≤ 30)
    ∧ (runTagChunks zid oracle (chunksOf30 (splitCommaList tags)) st prev).1.callLog
        = st.callLog ++ (issuedChunks oracle st.calls (chunksOf30 (splitCommaList tags))).map
            (fun c => PurgeCall.cache zid [] [] c)
    ∧ issuedChunks oracle st.calls (chunksOf30 (splitCommaList tags)) ≠ []
    ∧ (∃ rest, chunksOf30 (splitCommaList tags)
        = issuedChunks oracle st.calls (chunksOf30 (splitCommaList tags)) ++ rest)
    ∧ ((runTagChunks zid oracle (chunksOf30 (splitCommaList tags)) st prev).2 = true →
        issuedChunks oracle st.calls (chunksOf30 (splitCommaList tags))
          = chunksOf30 (splitCommaList tags)) := by
  have hcs : chunksOf30 (splitCommaList tags) ≠ [] :=
    chunksOf30_ne_nil _ (splitCommaList_ne_nil tags ht)
  have hspec := runTagChunks_spec zid oracle (chunksOf30 (splitCommaList tags)) st prev
  refine ⟨chunksOf30_length_le _, ?_, ?_, issuedChunks_initial oracle _ st.calls, ?_⟩
  · rw [hspec]
  · exact issuedChunks_ne_nil oracle st.calls _ hcs
  · intro hok
    rw [hspec] at hok
    simp only [if_neg hcs] at hok
    exact issuedChunks_all_of_last_ok oracle _ st.calls hcs hok

/-- C4, witness for the amended theorem at two tags and an always-succeeding
oracle: one chunk, issued in full. -/
theorem c4_amended_witness :
    (∀ c ∈ chunksOf30 (splitCommaList "a,b"), c.length ≤ 30)
    ∧ (runTagChunks "z1" (fun _ => true) (chunksOf30 (splitCommaList "a,b")) initRunState true).1.callLog
        = initRunState.callLog ++
            (issuedChunks (fun _ => true) initRunState.calls (chunksOf30 (splitCommaList "a,b"))).map
              (fun c => PurgeCall.cache "z1" [] [] c)
    ∧ issuedChunks (fun _ => true) initRunState.calls (chunksOf30 (splitCommaList "a,b")) ≠ []
    ∧ (∃ rest, chunksOf30 (splitCommaList "a,b")
        = issuedChunks (fun _ => true) initRunState.calls (chunksOf30 (splitCommaList "a,b")) ++ rest)
    ∧ ((runTagChunks "z1" (fun _ => true) (chunksOf30 (splitCommaList "a,b")) initRunState true).2 = true →
        issuedChunks (fun _ => true) initRunState.calls (chunksOf30 (splitCommaList "a,b"))
          = chunksOf30 (splitCommaList "a,b")) :=
  c4_amended "z1" (fun _ => true) "a,b" initRunState true (by decide)

/-- The issued chunks of a nonempty chunk list have length at least one. -/
lemma issuedChunks_length_pos (oracle : Nat → Bool) (n : Nat) (cs : List (List String))
    (hcs : cs ≠ []) : 1 ≤ (issuedChunks oracle n cs).length := by
  have hne := issuedChunks_ne_nil oracle n cs hcs
  cases hi : issuedChunks oracle n cs with
  | nil => exact absurd hi hne
  | cons a t => simp

/-- Last-call-wins behaviour of the selective branch of `purgeCmd.RunE`
(src/cmd/purge.go lines 142-198): when the zone's payload is nonempty, some
`k ≥ 1` calls are issued for the zone and the single error variable left
behind is the outcome of the last of them, which alone decides which counter
is bumped. -/
lemma processZoneCmd_last_call (hosts urls tags : String) (oracle : Nat → Bool)
    (st : RunState) (z : Zone)
    (hguard : purgeHostsListFor hosts z ≠ [] ∨ purgeURLsListFor urls z ≠ [] ∨ tags ≠ "") :
    ∃ k, 1 ≤ k
      ∧ (processZoneCmd hosts urls tags false oracle st z).calls = st.calls + k
      ∧ (processZoneCmd hosts urls tags false oracle st z).callLog.length
          = st.callLog.length + k
      ∧ (processZoneCmd hosts urls tags false oracle st z).successCount
          = st.successCount + (if oracle (st.calls + k - 1) = true then 1 else 0)
      ∧ (processZoneCmd hosts urls tags false oracle st z).failureCount
          = st.failureCount + (if oracle (st.calls + k - 1) = true then 0 else 1) := by
  simp only [processZoneCmd, issueCall]
  rw [if_neg (show ¬(false = true) from by simp), if_pos hguard]
  by_cases hA : purgeHostsListFor hosts z = []
  · simp only [if_neg (not_not_intro hA)]
    by_cases hB : purgeURLsListFor urls z = []
    · simp only [if_neg (not_not_intro hB)]
      have hT : tags ≠ "" := by
        rcases hguard with h | h | h
        · exact absurd hA h
        · exact absurd hB h
        · exact h
      simp only [if_pos hT]
      rw [runTagChunks_spec]
      have hcs : chunksOf30 (splitCommaList tags) ≠ [] :=
        chunksOf30_ne_nil _ (splitCommaList_ne_nil tags hT)
      have hlen := issuedChunks_length_pos oracle st.calls _ hcs
      refine ⟨(issuedChunks oracle st.calls (chunksOf30 (splitCommaList tags))).length,
        hlen, ?_, ?_, ?_, ?_⟩ <;>
        · simp only [if_neg hcs]
          by_cases ho : oracle (st.calls +
              (issuedChunks oracle st.calls (chunksOf30 (splitCommaList tags))).length - 1) = true <;>
            simp [ho, List.length_append, List.length_map]
    · simp only [if_pos hB]
      by_cases hT : tags = ""
      · simp only [if_neg (not_not_intro hT)]
        refine ⟨1, le_refl 1, ?_, ?_, ?_, ?_⟩ <;>
          · by_cases ho : oracle st.calls = true <;> simp [ho, List.length_append]
      · simp only [if_pos hT]
        rw [runTagChunks_spec]
        have hcs : chunksOf30 (splitCommaList tags) ≠ [] :=
          chunksOf30_ne_nil _ (splitCommaList_ne_nil tags hT)
        have hlen := issuedChunks_length_pos oracle (st.calls + 1) _ hcs
        refine ⟨1 + (issuedChunks oracle (st.calls + 1) (chunksOf30 (splitCommaList tags))).length,
          by omega, ?_, ?_, ?_, ?_⟩ <;>
          · simp only [if_neg hcs]
            have harith : st.calls + 1 +
                (issuedChunks oracle (st.calls + 1) (chunksOf30 (splitCommaList tags))).length - 1
                = st.calls + (1 +
                  (issuedChunks oracle (st.calls + 1) (chunksOf30 (splitCommaList tags))).length) - 1 := by
              omega
            by_cases ho : oracle (st.calls + (1 +
                (issuedChunks oracle (st.calls + 1) (chunksOf30 (splitCommaList tags))).length) - 1)
                = true <;>
              · rw [harith] at *
                simp [ho, List.length_append, List.length_map]
                try omega
  · simp only [if_pos hA]
    by_cases hB : purgeURLsListFor urls z = []
    · simp only [if_neg (not_not_intro hB)]
      by_cases hT : tags = ""
      · simp only [if_neg (not_not_intro hT)]
        refine ⟨1, le_refl 1, ?_, ?_, ?_, ?_⟩ <;>
          · by_cases ho : oracle st.calls = true <;> simp [ho, List.length_append]
      · simp only [if_pos hT]
        rw [runTagChunks_spec]
        have hcs : chunksOf30 (splitCommaList tags) ≠ [] :=
          chunksOf30_ne_nil _ (splitCommaList_ne_nil tags hT)
        have hlen := issuedChunks_length_pos oracle (st.calls + 1) _ hcs
        refine ⟨1 + (issuedChunks oracle (st.calls + 1) (chunksOf30 (splitCommaList tags))).length,
          by omega, ?_, ?_, ?_, ?_⟩ <;>
          · simp only [if_neg hcs]
            have harith : st.calls + 1 +
                (issuedChunks oracle (st.calls + 1) (chunksOf30 (splitCommaList tags))).length - 1
                = st.calls + (1 +
                  (issuedChunks oracle (st.calls + 1) (chunksOf30 (splitCommaList tags))).length) - 1 := by
              omega
            by_cases ho : oracle (st.calls + (1 +
                (issuedChunks oracle (st.calls + 1) (chunksOf30 (splitCommaList tags))).length) - 1)
                = true <;>
              · rw [harith] at *
                simp [ho, List.length_append, List.length_map]
                try omega
    · simp only [if_pos hB]
      by_cases hT : tags = ""
      · simp only [if_neg (not_not_intro hT)]
        refine ⟨2, by omega, ?_, ?_, ?_, ?_⟩ <;>
          · by_cases ho : oracle (st.calls + 1) = true <;>
              simp [ho, List.length_append, show st.calls + 2 - 1 = st.calls + 1 from by omega]
      · simp only [if_pos hT]
        rw [runTagChunks_spec]
        have hcs : chunksOf30 (splitCommaList tags) ≠ [] :=
          chunksOf30_ne_nil _ (splitCommaList_ne_nil tags hT)
        have hlen := issuedChunks_length_pos oracle (st.calls + 1 + 1) _ hcs
        refine ⟨2 + (issuedChunks oracle (st.calls + 1 + 1) (chunksOf30 (splitCommaList tags))).length,
          by omega, ?_, ?_, ?_, ?_⟩ <;>
          · simp only [if_neg hcs]
            have harith : st.calls + 1 + 1 +
                (issuedChunks oracle (st.calls + 1 + 1) (chunksOf30 (splitCommaList tags))).length - 1
                = st.calls + (2 +
                  (issuedChunks oracle (st.calls + 1 + 1) (chunksOf30 (splitCommaList tags))).length) - 1 := by
              omega
            by_cases ho : oracle (st.calls + (2 +
                (issuedChunks oracle (st.calls + 1 + 1) (chunksOf30 (splitCommaList tags))).length) - 1)
                = true <;>
              · rw [harith] at *
                simp [ho, List.length_append, List.length_map]
                try omega

/-- Last-call-wins behaviour of the selective branch of `handlePurge`
(src/unnamed/part_003 lines 196-234): same shared-error overwriting as the
cobra loop, with a single tag call instead of chunks. -/
lemma processZoneMain_last_call (hosts urls tags : String) (oracle : Nat → Bool)
    (st : RunState) (z : Zone)
    (hguard : purgeHostsListFor hosts z ≠ [] ∨ purgeURLsListFor urls z ≠ [] ∨ tags ≠ "") :
    ∃ k, 1 ≤ k
      ∧ (processZoneMain hosts urls tags false oracle st z).calls = st.calls + k
      ∧ (processZoneMain hosts urls tags false oracle st z).callLog.length
          = st.callLog.length + k
      ∧ (processZoneMain hosts urls tags false oracle st z).successCount
          = st.successCount + (if oracle (st.calls + k - 1) = true then 1 else 0)
      ∧ (processZoneMain hosts urls tags false oracle st z).failureCount
          = st.failureCount + (if oracle (st.calls + k - 1) = true then 0 else 1) := by
  simp only [processZoneMain, issueCall]
  rw [if_neg (show ¬(false = true) from by simp), if_pos hguard]
  by_cases hA : purgeHostsListFor hosts z = []
  · simp only [if_neg (not_not_intro hA)]
    by_cases hB : purgeURLsListFor urls z = []
    · simp only [if_neg (not_not_intro hB)]
      have hT : tags ≠ "" := by
        rcases hguard with h | h | h
        · exact absurd hA h
        · exact absurd hB h
        · exact h
      simp only [if_pos (splitCommaList_ne_nil tags hT)]
      refine ⟨1, le_refl 1, ?_, ?_, ?_, ?_⟩ <;>
        · by_cases ho : oracle st.calls = true <;> simp [ho, List.length_append]
    · simp only [if_pos hB]
      by_cases hT : tags = ""
      · have hsp : splitCommaList tags = [] := by rw [hT]; rfl
        simp only [if_neg (not_not_intro hsp)]
        refine ⟨1, le_refl 1, ?_, ?_, ?_, ?_⟩ <;>
          · by_cases ho : oracle st.calls = true <;> simp [ho, List.length_append]
      · simp only [if_pos (splitCommaList_ne_nil tags hT)]
        refine ⟨2, by omega, ?_, ?_, ?_, ?_⟩ <;>
          · by_cases ho : oracle (st.calls + 1) = true <;>
              simp [ho, List.length_append, show st.calls + 2 - 1 = st.calls + 1 from by omega]
  · simp only [if_pos hA]
    by_cases hB : purgeURLsListFor urls z = []
    · simp only [if_neg (not_not_intro hB)]
      by_cases hT : tags = ""
      · have hsp : splitCommaList tags = [] := by rw [hT]; rfl
        simp only [if_neg (not_not_intro hsp)]
        refine ⟨1, le_refl 1, ?_, ?_, ?_, ?_⟩ <;>
          · by_cases ho : oracle st.calls = true <;> simp [ho, List.length_append]
      · simp only [if_pos (splitCommaList_ne_nil tags hT)]
        refine ⟨2, by omega, ?_, ?_, ?_, ?_⟩ <;>
          · by_cases ho : oracle (st.calls + 1) = true <;>
              simp [ho, List.length_append, show st.calls + 2 - 1 = st.calls + 1 from by omega]
    · simp only [if_pos hB]
      by_cases hT : tags = ""
      · have hsp : splitCommaList tags = [] := by rw [hT]; rfl
        simp only [if_neg (not_not_intro hsp)]
        refine ⟨2, by omega, ?_, ?_, ?_, ?_⟩ <;>
          · by_cases ho : oracle (st.calls + 1) = true <;>
              simp [ho, List.length_append, show st.calls + 2 - 1 = st.calls + 1 from by omega]
      · simp only [if_pos (splitCommaList_ne_nil tags hT)]
        refine ⟨3, by omega, ?_, ?_, ?_, ?_⟩ <;>
          · by_cases ho : oracle (st.calls + 1 + 1) = true <;>
              simp [ho, List.length_append,
                show st.calls + 3 - 1 = st.calls + 1 + 1 from by omega]

/-- C10, confirmed.  In the selective branch of both purge loops, whenever a
zone's payload is nonempty, `k ≥ 1` calls are issued for the zone but the
shared error variable is overwritten by each call, so only the oracle's answer
for the LAST issued call (index `st.calls + k - 1`) decides which of the two
counters is bumped — an earlier failed call followed by a successful later
call is counted as one success with no failure recorded. -/
theorem c10_last_call_only (hosts urls tags : String) (oracle : Nat → Bool)
    (st : RunState) (z : Zone)
    (hguard : purgeHostsListFor hosts z ≠ [] ∨ purgeURLsListFor urls z ≠ [] ∨ tags ≠ "") :
    (∃ k, 1 ≤ k
      ∧ (processZoneCmd hosts urls tags false oracle st z).calls = st.calls + k
      ∧ (processZoneCmd hosts urls tags false oracle st z).callLog.length
          = st.callLog.length + k
      ∧ (processZoneCmd hosts urls tags false oracle st z).successCount
          = st.successCount + (if oracle (st.calls + k - 1) = true then 1 else 0)
      ∧ (processZoneCmd hosts urls tags false oracle st z).failureCount
          = st.failureCount + (if oracle (st.calls + k - 1) = true then 0 else 1))
    ∧ (∃ k, 1 ≤ k
      ∧ (processZoneMain hosts urls tags false oracle st z).calls = st.calls + k
      ∧ (processZoneMain hosts urls tags false oracle st z).callLog.length
          = st.callLog.length + k
      ∧ (processZoneMain hosts urls tags false oracle st z).successCount
          = st.successCount + (if oracle (st.calls + k - 1) = true then 1 else 0)
      ∧ (processZoneMain hosts urls tags false oracle st z).failureCount
          = st.failureCount + (if oracle (st.calls + k - 1) = true then 0 else 1)) :=
  ⟨processZoneCmd_last_call hosts urls tags oracle st z hguard,
   processZoneMain_last_call hosts urls tags oracle st z hguard⟩

/-- C10, witness: a hosts call that fails (call 0) followed by a URLs call
that succeeds (call 1) leaves the zone counted as a success. -/
theorem c10_last_call_only_witness :
    (∃ k, 1 ≤ k
      ∧ (processZoneCmd "h.example.com" "https://example.com/x" "" false
          (fun n => decide (n = 1)) initRunState zEx).calls = initRunState.calls + k
      ∧ (processZoneCmd "h.example.com" "https://example.com/x" "" false
          (fun n => decide (n = 1)) initRunState zEx).callLog.length
          = initRunState.callLog.length + k
      ∧ (processZoneCmd "h.example.com" "https://example.com/x" "" false
          (fun n => decide (n = 1)) initRunState zEx).successCount
          = initRunState.successCount
            + (if (fun n => decide (n = 1)) (initRunState.calls + k - 1) = true then 1 else 0)
      ∧ (processZoneCmd "h.example.com" "https://example.com/x" "" false
          (fun n => decide (n = 1)) initRunState zEx).failureCount
          = initRunState.failureCount
            + (if (fun n => decide (n = 1)) (initRunState.calls + k - 1) = true then 0 else 1))
    ∧ (∃ k, 1 ≤ k
      ∧ (processZoneMain "h.example.com" "https://example.com/x" "" false
          (fun n => decide (n = 1)) initRunState zEx).calls = initRunState.calls + k
      ∧ (processZoneMain "h.example.com" "https://example.com/x" "" false
          (fun n => decide (n = 1)) initRunState zEx).callLog.length
          = initRunState.callLog.length + k
      ∧ (processZoneMain "h.example.com" "https://example.com/x" "" false
          (fun n => decide (n = 1)) initRunState zEx).successCount
          = initRunState.successCount
            + (if (fun n => decide (n = 1)) (initRunState.calls + k - 1) = true then 1 else 0)
      ∧ (processZoneMain "h.example.com" "https://example.com/x" "" false
          (fun n => decide (n = 1)) initRunState zEx).failureCount
          = initRunState.failureCount
            + (if (fun n => decide (n = 1)) (initRunState.calls + k - 1) = true then 0 else 1)) :=
  c10_last_call_only "h.example.com" "https://example.com/x" "" (fun n => decide (n = 1))
    initRunState zEx (by decide)

/-- True when the purge loop issues at least one call for the zone:
`--everything` is set, or the selective payload is nonempty
(src/cmd/purge.go lines 108-199). -/
def zoneAttempted (hosts urls tags : String) (everything : Bool) (z : Zone) : Bool :=
  everything ||
    decide (purgeHostsListFor hosts z ≠ [] ∨ purgeURLsListFor urls z ≠ [] ∨ tags ≠ "")

/-- A zone with an empty selective payload is skipped entirely. -/
lemma processZoneCmd_skip (hosts urls tags : String) (oracle : Nat → Bool)
    (st : RunState) (z : Zone)
    (hg : ¬(purgeHostsListFor hosts z ≠ [] ∨ purgeURLsListFor urls z ≠ [] ∨ tags ≠ "")) :
    processZoneCmd hosts urls tags false oracle st z = st := by
  simp only [processZoneCmd]
  rw [if_neg (show ¬(false = true) from by simp), if_neg hg]

/-- Each zone adds exactly `1` to `successCount + failureCount` when it is
attempted and `0` otherwise. -/
lemma processZoneCmd_sum (hosts urls tags : String) (everything : Bool)
    (oracle : Nat → Bool) (st : RunState) (z : Zone) :
    (processZoneCmd hosts urls tags everything oracle st z).successCount
      + (processZoneCmd hosts urls tags everything oracle st z).failureCount
    = st.successCount + st.failureCount
      + (if zoneAttempted hosts urls tags everything z = true then 1 else 0) := by
  by_cases he : everything = true
  · subst he
    by_cases ho : oracle st.calls = true <;>
      simp [processZoneCmd, issueCall, zoneAttempted, ho] <;> omega
  · have he' : everything = false := by revert he; cases everything <;> simp
    subst he'
    by_cases hg : purgeHostsListFor hosts z ≠ [] ∨ purgeURLsListFor urls z ≠ [] ∨ tags ≠ ""
    · obtain ⟨k, _, _, _, hs, hf⟩ := processZoneCmd_last_call hosts urls tags oracle st z hg
      rw [hs, hf]
      have hatt : zoneAttempted hosts urls tags false z = true := by
        simp [zoneAttempted, hg]
      rw [if_pos hatt]
      by_cases ho : oracle (st.calls + k - 1) = true <;> simp [ho] <;> omega
    · rw [processZoneCmd_skip hosts urls tags oracle st z hg]
      have hatt : zoneAttempted hosts urls tags false z = false := by
        simp only [zoneAttempted, Bool.false_or, decide_eq_false hg]
      rw [hatt]
      simp

/-- Folded form of `processZoneCmd_sum` over the target-zone list. -/
lemma foldZonesCmd_sum (hosts urls tags : String) (everything : Bool)
    (oracle : Nat → Bool) :
    ∀ (targets : List Zone) (st : RunState),
      ((targets.foldl (processZoneCmd hosts urls tags everything oracle) st).successCount
        + (targets.foldl (processZoneCmd hosts urls tags everything oracle) st).failureCount)
      = st.successCount + st.failureCount
        + (targets.filter (fun z => zoneAttempted hosts urls tags everything z)).length := by
  intro targets
  induction targets with
  | nil => intro st; simp
  | cons z t ih =>
    intro st
    simp only [List.foldl_cons, List.filter_cons]
    rw [ih]
    rw [processZoneCmd_sum]
    by_cases hz : zoneAttempted hosts urls tags everything z = true
    · rw [if_pos hz]
      simp only [hz, if_true, List.length_cons]
      omega
    · rw [if_neg hz]
      have : zoneAttempted hosts urls tags everything z = false := by
        revert hz; cases zoneAttempted hosts urls tags everything z <;> simp
      rw [this]
      simp

/-- Folding batch-by-batch is folding over the concatenation of the batches. -/
lemma foldl_foldl_join (f : β → α → β) :
    ∀ (L : List (List α)) (b : β),
      L.foldl (fun b l => l.foldl f b) b = L.join.foldl f b := by
  intro L
  induction L with
  | nil => intro b; rfl
  | cons l t ih =>
    intro b
    simp only [List.foldl_cons, List.join_cons, List.foldl_append]
    exact ih _

/-- True exactly on failed collaborator results. -/
def exceptFailed : Except ε α → Bool := fun e =>
  match e with
  | .error _ => true
  | .ok _ => false

/-- Per-key characterization of the delete fold: one logged call per key, one
counter bump per key, tags and dry-run reports untouched. -/
lemma deleteFoldFlat_spec (nsID : String) (oracle : Nat → Bool) :
    ∀ (keys : List String) (st : KVState),
      (keys.foldl (deleteKeyStep nsID oracle) st).deleteCalls
          = st.deleteCalls ++ keys.map (fun k => (nsID, k))
      ∧ (keys.foldl (deleteKeyStep nsID oracle) st).totalSuccess
          + (keys.foldl (deleteKeyStep nsID oracle) st).totalFailure
          = st.totalSuccess + st.totalFailure + keys.length
      ∧ (keys.foldl (deleteKeyStep nsID oracle) st).allCacheTags = st.allCacheTags
      ∧ (keys.foldl (deleteKeyStep nsID oracle) st).reported = st.reported := by
  intro keys
  induction keys with
  | nil => intro st; simp
  | cons k t ih =>
    intro st
    simp only [List.foldl_cons, List.map_cons]
    have hstep : ∀ st' : KVState, deleteKeyStep nsID oracle st' k
        = (if oracle st'.deleteCalls.length = true then
            { st' with deleteCalls := st'.deleteCalls ++ [(nsID, k)],
                       totalSuccess := st'.totalSuccess + 1 }
           else
            { st' with deleteCalls := st'.deleteCalls ++ [(nsID, k)],
                       totalFailure := st'.totalFailure + 1 }) := by
      intro st'
      simp only [deleteKeyStep]
    rw [hstep]
    by_cases ho : oracle st.deleteCalls.length = true
    · rw [if_pos ho]
      obtain ⟨i1, i2, i3, i4⟩ := ih { st with deleteCalls := st.deleteCalls ++ [(nsID, k)],
                                              totalSuccess := st.totalSuccess + 1 }
      refine ⟨?_, ?_, i3, i4⟩
      · rw [i1]; simp [List.append_assoc]
      · rw [i2]; simp only [List.length_cons]; omega
    · rw [if_neg ho]
      obtain ⟨i1, i2, i3, i4⟩ := ih { st with deleteCalls := st.deleteCalls ++ [(nsID, k)],
                                              totalFailure := st.totalFailure + 1 }
      refine ⟨?_, ?_, i3, i4⟩
      · rw [i1]; simp [List.append_assoc]
      · rw [i2]; simp only [List.length_cons]; omega

/-- The batched delete loop: same characterization as the flat fold. -/
lemma deleteKeysBatch_spec (nsID : String) (oracle : Nat → Bool)
    (keys : List String) (st : KVState) :
    (deleteKeysBatch nsID oracle st keys).deleteCalls
        = st.deleteCalls ++ keys.map (fun k => (nsID, k))
    ∧ (deleteKeysBatch nsID oracle st keys).totalSuccess
        + (deleteKeysBatch nsID oracle st keys).totalFailure
        = st.totalSuccess + st.totalFailure + keys.length
    ∧ (deleteKeysBatch nsID oracle st keys).allCacheTags = st.allCacheTags
    ∧ (deleteKeysBatch nsID oracle st keys).reported = st.reported := by
  unfold deleteKeysBatch
  rw [foldl_foldl_join, chunksOf30_join]
  exact deleteFoldFlat_spec nsID oracle keys st

/-- Accounting identity for one namespace of the real (non-dry) KV run:
`totalSuccess + totalFailure` grows by one per issued delete call, plus one
when the key listing itself failed. -/
lemma processNamespace_sum (deleteByTag : String)
    (listing : String → Except String (List KVEntry)) (oracle : Nat → Bool)
    (st : KVState) (nsID : String) :
    (processNamespace deleteByTag listing false oracle st nsID).totalSuccess
      + (processNamespace deleteByTag listing false oracle st nsID).totalFailure
      + st.deleteCalls.length
    = st.totalSuccess + st.totalFailure
      + (processNamespace deleteByTag listing false oracle st nsID).deleteCalls.length
      + (if exceptFailed (listing nsID) = true then 1 else 0) := by
  unfold processNamespace
  cases hls : listing nsID with
  | error e => simp only [exceptFailed, if_pos rfl]; simp; omega
  | ok keys =>
    simp only [exceptFailed]
    by_cases hkd : (collectByTag keys deleteByTag).1 = []
    · rw [if_pos hkd]
      simp
    · rw [if_neg hkd]
      rw [if_neg (show ¬(false = true) from by simp)]
      obtain ⟨i1, i2, _, _⟩ :=
        deleteKeysBatch_spec nsID oracle (collectByTag keys deleteByTag).1 st
      simp only [i2, i1, List.length_append, List.length_map, Bool.false_eq_true, if_false]
      omega

/-- Folded accounting identity for the real KV delete pass. -/
lemma kvDelete_sum (deleteByTag : String)
    (listing : String → Except String (List KVEntry)) (oracle : Nat → Bool) :
    ∀ (nsIDs : List String) (st : KVState),
      (nsIDs.foldl (processNamespace deleteByTag listing false oracle) st).totalSuccess
        + (nsIDs.foldl (processNamespace deleteByTag listing false oracle) st).totalFailure
        + st.deleteCalls.length
      = st.totalSuccess + st.totalFailure
        + (nsIDs.foldl (processNamespace deleteByTag listing false oracle) st).deleteCalls.length
        + (nsIDs.filter (fun ns => exceptFailed (listing ns))).length := by
  intro nsIDs
  induction nsIDs with
  | nil => intro st; simp
  | cons ns t ih =>
    intro st
    simp only [List.foldl_cons, List.filter_cons]
    have hstep := processNamespace_sum deleteByTag listing oracle st ns
    have hrec := ih (processNamespace deleteByTag listing false oracle st ns)
    by_cases hf : exceptFailed (listing ns) = true
    · rw [if_pos hf] at hstep
      simp only [hf, if_true, List.length_cons]
      omega
    · rw [if_neg hf] at hstep
      have hf' : exceptFailed (listing ns) = false := by
        revert hf; cases exceptFailed (listing ns) <;> simp
      simp only [hf', Bool.false_eq_true, if_false]
      omega

/-- C2, counterexample.  A single zone given both a host and a URL issues TWO
purge calls (src/cmd/purge.go lines 145-157) but contributes only ONE to
`successCount + failureCount`: the counters count zones, not attempted calls,
so `successCount + failureCount` is not the number of attempted operations
counted per call. -/
theorem c2_counterexample :
    (processZoneCmd "h.example.com" "https://example.com/p" "" false (fun _ => true)
      initRunState zEx).calls = 2
    ∧ (processZoneCmd "h.example.com" "https://example.com/p" "" false (fun _ => true)
        initRunState zEx).successCount
      + (processZoneCmd "h.example.com" "https://example.com/p" "" false (fun _ => true)
          initRunState zEx).failureCount = 1 := by
  constructor <;> decide

/-- C2, amended.  In the zone purge loop `successCount + failureCount` equals
the number of ATTEMPTED ZONES (zones for which at least one call was issued),
one per zone however many calls were made for it; in the KV purge pass
`totalSuccessCount + totalFailureCount` equals the number of issued delete
calls plus one per namespace whose key listing failed. -/
theorem c2_amended (hosts urls tags : String) (everything : Bool) (oracle : Nat → Bool)
    (targets : List Zone) (deleteByTag : String)
    (listing : String → Except String (List KVEntry)) (delOracle : Nat → Bool)
    (nsIDs : List String) :
    ((targets.foldl (processZoneCmd hosts urls tags everything oracle) initRunState).successCount
      + (targets.foldl (processZoneCmd hosts urls tags everything oracle) initRunState).failureCount
      = (targets.filter (fun z => zoneAttempted hosts urls tags everything z)).length)
    ∧ ((kvDeletePhase deleteByTag listing false delOracle nsIDs).totalSuccess
        + (kvDeletePhase deleteByTag listing false delOracle nsIDs).totalFailure
      = (kvDeletePhase deleteByTag listing false delOracle nsIDs).deleteCalls.length
        + (nsIDs.filter (fun ns => exceptFailed (listing ns))).length) := by
  constructor
  · have := foldZonesCmd_sum hosts urls tags everything oracle targets initRunState
    simpa [initRunState] using this
  · have := kvDelete_sum deleteByTag listing delOracle nsIDs ⟨0, 0, [], [], []⟩
    simpa [kvDeletePhase] using this

/-- C9, confirmed.  In the selective branch, a target zone with no assigned
hosts, no assigned URLs and no tags issues no API call and leaves the whole
run state — call log and both counters — untouched
(src/cmd/purge.go lines 142-198). -/
theorem c9_empty_payload (hosts urls : String) (oracle : Nat → Bool)
    (st : RunState) (z : Zone)
    (hh : purgeHostsListFor hosts z = []) (hu : purgeURLsListFor urls z = []) :
    processZoneCmd hosts urls "" false oracle st z = st := by
  apply processZoneCmd_skip
  rintro (hc | hc | hc)
  · exact hc hh
  · exact hc hu
  · exact hc rfl

/-- C9, witness: a host belonging to a different domain leaves the state of
the zone `example.com` untouched. -/
theorem c9_empty_payload_witness :
    processZoneCmd "x.other.org" "" "" false (fun _ => true) initRunState zEx
      = initRunState :=
  c9_empty_payload "x.other.org" "" (fun _ => true) initRunState zEx
    (by decide) (by decide)

/-- C3, counterexample.  With one zone whose `--everything` purge fails, the
cobra command's `RunE` (src/cmd/purge.go lines 180-202) still returns nil
after printing the summary, so the process exits 0 even though
`failureCount = 1`: the exit code is NOT 1 whenever an operation fails. -/
theorem c3_counterexample :
    purgeRunE true (.ok [zEx]) ["example.com"] "" "" "" false true (fun _ => false)
      = .ok ⟨1, [.everything "idE"], 0, 1⟩
    ∧ cmdExitCode true (.ok [zEx]) ["example.com"] "" "" "" false true (fun _ => false)
      = 0 := by
  constructor <;> rfl

/-- C3, amended.  In `handlePurge` (src/unnamed/part_003 lines 237-241) the
process exit code is 0 iff the run completed with `failureCount = 0`, and 1
both for pre-flight errors and for runs with failures; but the cobra purge
command's `RunE` returns nil regardless of the counters, so that binary exits
0 whenever the run gets past pre-flight validation, failures included. -/
theorem c3_amended (authOk : Bool) (zonesResult : Except String (List Zone))
    (zoneArgs : List String) (hosts urls tags : String) (all0 everything : Bool)
    (oracle : Nat → Bool) :
    (handlePurgeExitCode authOk zonesResult zoneArgs hosts urls tags all0 everything oracle = 0
      ↔ ∃ st, handlePurgeRun authOk zonesResult zoneArgs hosts urls tags all0 everything oracle
          = .ok st ∧ st.failureCount = 0)
    ∧ (cmdExitCode authOk zonesResult zoneArgs hosts urls tags all0 everything oracle = 0
      ↔ ∃ st, purgeRunE authOk zonesResult zoneArgs hosts urls tags all0 everything oracle
          = .ok st) := by
  constructor
  · unfold handlePurgeExitCode
    cases hr : handlePurgeRun authOk zonesResult zoneArgs hosts urls tags all0 everything oracle with
    | error e => simp
    | ok st =>
      simp only [Except.ok.injEq]
      constructor
      · intro hcode
        refine ⟨st, rfl, ?_⟩
        by_cases hf : st.failureCount > 0
        · rw [if_pos hf] at hcode; exact absurd hcode (by simp)
        · omega
      · rintro ⟨st', hst', hf⟩
        subst hst'
        rw [if_neg (by omega)]
  · unfold cmdExitCode
    cases hr : purgeRunE authOk zonesResult zoneArgs hosts urls tags all0 everything oracle with
    | error e => simp
    | ok st => simp

/-! ## Dry run versus real run of the KV purge -/

/-- Joint invariant of the dry and real namespace folds with the same inputs:
the dry run issues no delete calls and collects no tags, the real run reports
nothing, and the keys the dry run reports are exactly those the real run
issues delete calls for (same namespaces, same order). -/
lemma kvPhase_dry_real (deleteByTag : String)
    (listing : String → Except String (List KVEntry)) (delOracle : Nat → Bool) :
    ∀ (nsIDs : List String) (std str : KVState),
      std.deleteCalls = [] → std.allCacheTags = [] → str.reported = [] →
      std.reported = str.deleteCalls →
      (nsIDs.foldl (processNamespace deleteByTag listing true delOracle) std).deleteCalls = []
      ∧ (nsIDs.foldl (processNamespace deleteByTag listing true delOracle) std).allCacheTags = []
      ∧ (nsIDs.foldl (processNamespace deleteByTag listing false delOracle) str).reported = []
      ∧ (nsIDs.foldl (processNamespace deleteByTag listing true delOracle) std).reported
          = (nsIDs.foldl (processNamespace deleteByTag listing false delOracle) str).deleteCalls := by
  intro nsIDs
  induction nsIDs with
  | nil =>
    intro std str h1 h2 h3 h4
    exact ⟨h1, h2, h3, h4⟩
  | cons ns t ih =>
    intro std str h1 h2 h3 h4
    simp only [List.foldl_cons]
    cases hls : listing ns with
    | error e =>
      have hd : processNamespace deleteByTag listing true delOracle std ns
          = { std with totalFailure := std.totalFailure + 1 } := by
        unfold processNamespace; rw [hls]
      have hr : processNamespace deleteByTag listing false delOracle str ns
          = { str with totalFailure := str.totalFailure + 1 } := by
        unfold processNamespace; rw [hls]
      rw [hd, hr]
      exact ih _ _ h1 h2 h3 h4
    | ok keys =>
      by_cases hkd : (collectByTag keys deleteByTag).1 = []
      · have hd : processNamespace deleteByTag listing true delOracle std ns = std := by
          unfold processNamespace; rw [hls]; dsimp only; rw [if_pos hkd]
        have hr : processNamespace deleteByTag listing false delOracle str ns = str := by
          unfold processNamespace; rw [hls]; dsimp only; rw [if_pos hkd]
        rw [hd, hr]
        exact ih _ _ h1 h2 h3 h4
      · have hd : processNamespace deleteByTag listing true delOracle std ns
            = { std with reported := std.reported ++
                (collectByTag keys deleteByTag).1.map (fun k => (ns, k)) } := by
          unfold processNamespace; rw [hls]; dsimp only; rw [if_neg hkd, if_pos rfl]
        have hr : processNamespace deleteByTag listing false delOracle str ns
            = { deleteKeysBatch ns delOracle str (collectByTag keys deleteByTag).1 with
                allCacheTags := (deleteKeysBatch ns delOracle str
                  (collectByTag keys deleteByTag).1).allCacheTags
                    ++ (collectByTag keys deleteByTag).2 } := by
          unfold processNamespace
          rw [hls]; dsimp only
          rw [if_neg hkd, if_neg (show ¬(false = true) from by simp)]
        obtain ⟨b1, b2, b3, b4⟩ :=
          deleteKeysBatch_spec ns delOracle (collectByTag keys deleteByTag).1 str
        rw [hd, hr]
        apply ih
        · exact h1
        · exact h2
        · exact b4.trans h3
        · show std.reported ++ _ = (deleteKeysBatch ns delOracle str _).deleteCalls
          rw [b1, h4]

/-- C6, confirmed.  A dry run of the KV purge issues zero delete calls and
zero cache-purge calls (dry run both collects no tags and is excluded by the
`!dryRun` guard of src/cmd/kv/purge.go line 185), and the `(namespace, key)`
pairs it reports as to-be-deleted are exactly the ones the real run with the
same inputs issues delete calls for. -/
theorem c6_dry_run (deleteByTag : String)
    (listing : String → Except String (List KVEntry))
    (delOracle purgeOracle : Nat → Bool)
    (zonesResult : Except String (List Zone)) (nsIDs : List String) :
    (kvDeletePhase deleteByTag listing true delOracle nsIDs).deleteCalls = []
    ∧ (kvDeletePhase deleteByTag listing true delOracle nsIDs).allCacheTags = []
    ∧ (kvPurgePhase true zonesResult purgeOracle
        (kvDeletePhase deleteByTag listing true delOracle nsIDs).allCacheTags).purgeCalls = []
    ∧ (kvDeletePhase deleteByTag listing true delOracle nsIDs).reported
        = (kvDeletePhase deleteByTag listing false delOracle nsIDs).deleteCalls := by
  obtain ⟨e1, e2, _, e4⟩ := kvPhase_dry_real deleteByTag listing delOracle nsIDs
    ⟨0, 0, [], [], []⟩ ⟨0, 0, [], [], []⟩ rfl rfl rfl rfl
  refine ⟨e1, e2, ?_, e4⟩
  unfold kvPurgePhase
  rw [if_neg (by rintro ⟨_, hc⟩; exact absurd hc (by simp))]

/-- One collection step in terms of the spec-side `entryTagValue`. -/
lemma collectStep_eq (deleteByTag : String) (acc : List String × List String)
    (e : KVEntry) :
    collectStep deleteByTag acc e =
      (match entryTagValue e with
       | some tv =>
         if goContains tv deleteByTag = true then (acc.1 ++ [e.name], acc.2 ++ [tv]) else acc
       | none => acc) := by
  unfold collectStep entryTagValue
  cases e.metadata with
  | none => rfl
  | some v =>
    cases v with
    | str s => rfl
    | other => rfl
    | map fields =>
      dsimp only
      cases hlk : goLookup fields "cache-tag" with
      | none => rfl
      | some v' => cases v' <;> rfl

/-- The collection fold appends exactly the names and tag values of the
entries selected by the spec-side predicate. -/
lemma collectFold_spec (deleteByTag : String) :
    ∀ (keys : List KVEntry) (acc : List String × List String),
      keys.foldl (collectStep deleteByTag) acc
        = (acc.1 ++ (keys.filter (specMatches deleteByTag)).map KVEntry.name,
           acc.2 ++ keys.filterMap (fun e =>
             if specMatches deleteByTag e = true then entryTagValue e else none)) := by
  intro keys
  induction keys with
  | nil => intro acc; simp
  | cons e t ih =>
    intro acc
    simp only [List.foldl_cons, List.filter_cons, List.filterMap_cons]
    rw [collectStep_eq]
    cases htv : entryTagValue e with
    | none =>
      have hsm : specMatches deleteByTag e = false := by
        unfold specMatches; rw [htv]
      rw [ih]
      simp [hsm]
    | some tv =>
      dsimp only
      have hsm : specMatches deleteByTag e = goContains tv deleteByTag := by
        unfold specMatches; rw [htv]
      by_cases hc : goContains tv deleteByTag = true
      · rw [if_pos hc, ih]
        have hsm' : specMatches deleteByTag e = true := hsm.trans hc
        simp [hsm', htv, List.append_assoc]
      · have hc' : goContains tv deleteByTag = false := by
          revert hc; cases goContains tv deleteByTag <;> simp
        rw [if_neg hc, ih]
        have hsm' : specMatches deleteByTag e = false := hsm.trans hc'
        simp [hsm']

/-- C7, confirmed.  Tag collection selects exactly the entries whose metadata
is a map with a `cache-tag` field whose string value contains the filter as a
substring: `keysToDelete` is the name list of the selected entries and
`cacheTags` their raw tag values; entries with no metadata, non-map metadata,
no `cache-tag` field or a non-string one are skipped (the loop has no warning
output at all); and the composite tag `product-123-variant` is matched by the
filter `product-123`. -/
theorem c7_collect (keys : List KVEntry) (deleteByTag : String) :
    (collectByTag keys deleteByTag).1
        = (keys.filter (specMatches deleteByTag)).map KVEntry.name
    ∧ (collectByTag keys deleteByTag).2
        = keys.filterMap (fun e =>
            if specMatches deleteByTag e = true then entryTagValue e else none)
    ∧ collectByTag [⟨"k1", some (.map [("cache-tag", .str "product-123-variant")])⟩,
        ⟨"k2", none⟩, ⟨"k3", some (.map [("color", .str "blue")])⟩] "product-123"
      = (["k1"], ["product-123-variant"]) := by
  have h := collectFold_spec deleteByTag keys ([], [])
  refine ⟨?_, ?_, by decide⟩
  · show (keys.foldl (collectStep deleteByTag) ([], [])).1 = _
    rw [h]; simp
  · show (keys.foldl (collectStep deleteByTag) ([], [])).2 = _
    rw [h]; simp

/-- Fold invariant of the map construction in `util.StringSliceToSet`
(src/unnamed/part_001): the key list stays duplicate-free, and its members
are exactly the accumulator's keys plus the processed elements. -/
lemma setInsert_foldl_spec :
    ∀ (slice : List String) (acc : List String), acc.Nodup →
      (slice.foldl setInsert acc).Nodup
      ∧ ∀ t, t ∈ slice.foldl setInsert acc ↔ (t ∈ acc ∨ t ∈ slice) := by
  intro slice
  induction slice with
  | nil =>
    intro acc hacc
    refine ⟨hacc, fun t => ?_⟩
    simp
  | cons i rest ih =>
    intro acc hacc
    simp only [List.foldl_cons]
    by_cases hi : i ∈ acc
    · have hstep : setInsert acc i = acc := by unfold setInsert; rw [if_pos hi]
      rw [hstep]
      obtain ⟨n, m⟩ := ih acc hacc
      refine ⟨n, fun t => ?_⟩
      rw [m t]
      constructor
      · rintro (h | h)
        · exact Or.inl h
        · exact Or.inr (List.mem_cons_of_mem _ h)
      · rintro (h | h)
        · exact Or.inl h
        · rcases List.mem_cons.mp h with rfl | h'
          · exact Or.inl hi
          · exact Or.inr h'
    · have hstep : setInsert acc i = acc ++ [i] := by unfold setInsert; rw [if_neg hi]
      rw [hstep]
      have hacc' : (acc ++ [i]).Nodup := by
        rw [List.nodup_append]
        refine ⟨hacc, List.nodup_singleton i, ?_⟩
        intro t ht hts
        rw [List.mem_singleton] at hts
        subst hts
        exact hi ht
      obtain ⟨n, m⟩ := ih (acc ++ [i]) hacc'
      refine ⟨n, fun t => ?_⟩
      rw [m t]
      simp only [List.mem_append, List.mem_singleton, List.mem_cons]
      tauto

/-- C8, confirmed.  The tag list forwarded to the cache-purge calls is the
key list of the `map[string]bool` set built by `util.StringSliceToSet`
(src/unnamed/part_001) from all collected tag values: it has no duplicates,
it equals the collected tags as a set, and each collected tag occurs in it
exactly once. -/
theorem c8_dedup (allCacheTags : List String) :
    (stringSliceToSet allCacheTags).Nodup
    ∧ (stringSliceToSet allCacheTags).toFinset = allCacheTags.toFinset
    ∧ ∀ t, (stringSliceToSet allCacheTags).count t
        = if t ∈ allCacheTags then 1 else 0 := by
  obtain ⟨hn, hm⟩ := setInsert_foldl_spec allCacheTags [] List.nodup_nil
  have hmem : ∀ t, t ∈ stringSliceToSet allCacheTags ↔ t ∈ allCacheTags := by
    intro t
    unfold stringSliceToSet
    rw [hm t]
    simp
  refine ⟨hn, ?_, ?_⟩
  · ext a
    simp only [List.mem_toFinset]
    exact hmem a
  · intro t
    unfold stringSliceToSet
    rw [List.count_eq_of_nodup hn]
    by_cases h : t ∈ allCacheTags
    · rw [if_pos h, if_pos ((hm t).mpr (Or.inr h))]
    · have hnot : ¬ t ∈ List.foldl setInsert [] allCacheTags := by
        intro hc
        rcases (hm t).mp hc with h0 | h1
        · simp at h0
        · exact h h1
      rw [if_neg h, if_neg hnot]

end CachePurge
